import Mathlib

/-!
Verification development for the live-preview markdown editor core
(`src/slate-plugins/livePreview.ts`).

The development shallowly embeds the two algorithmic pieces of the source:

* `minifyHTML` — the HTML Normalizer, a fixed chain of JavaScript
  `String.replace` calls with global regexes.  Each regex is embedded as an
  executable matcher over `List Char` together with a generic left-to-right
  scan-and-replace driver (`scanRep`) that reproduces the semantics of a JS
  global replace: at each position try the regex; on a match emit the
  replacement and continue right after the match, otherwise keep the
  character and advance by one.  None of the regexes in the source can match
  the empty string, so every match consumes at least one character.

* `buildDecorations` — the decoration builder.  The host editor's document is
  a `String`, the primary selection an ordered pair of offsets, and the
  syntax tree traversal is modelled as the list of nodes, in the order the
  `enter` callback of `syntaxTree(state).iterate` visits them (pre-order,
  ascending start offsets).  `enterNode` is the body of the `enter` callback;
  `buildDecorations` concatenates the emitted decoration entries in visit
  order, which models `RangeSetBuilder.add` followed by `finish`.
-/

/-- Characters written by code point to keep the embedding free of quote and
brace literals. -/
def squoteC : Char := Char.ofNat 39

/-- Double quote character. -/
def dquoteC : Char := Char.ofNat 34

/-- Left curly brace character. -/
def lbraceC : Char := Char.ofNat 123

/-- Right curly brace character. -/
def rbraceC : Char := Char.ofNat 125

/-- JavaScript regex class `\s`: space, tab, line feed, vertical tab, form
feed, carriage return, NBSP, Ogham space mark, the U+2000..U+200A spaces,
line/paragraph separators, narrow NBSP, math space, ideographic space, BOM. -/
def jsWs (c : Char) : Bool :=
  c.toNat = 32 || c.toNat = 9 || c.toNat = 10 || c.toNat = 11 || c.toNat = 12 ||
  c.toNat = 13 || c.toNat = 160 || c.toNat = 5760 ||
  (decide (8192 ≤ c.toNat) && decide (c.toNat ≤ 8202)) ||
  c.toNat = 8232 || c.toNat = 8233 || c.toNat = 8239 || c.toNat = 8287 ||
  c.toNat = 12288 || c.toNat = 65279

/-- JavaScript line terminators, the characters the regex `.` does not match:
LF, CR, U+2028, U+2029. -/
def isLineTerm (c : Char) : Bool :=
  c.toNat = 10 || c.toNat = 13 || c.toNat = 8232 || c.toNat = 8233

/-- The regex class `[a-zA-Z0-9\-_]` of `=["']([a-zA-Z0-9\-_]+)["']`. -/
def simpleChar (c : Char) : Bool :=
  (decide (48 ≤ c.toNat) && decide (c.toNat ≤ 57)) ||
  (decide (65 ≤ c.toNat) && decide (c.toNat ≤ 90)) ||
  (decide (97 ≤ c.toNat) && decide (c.toNat ≤ 122)) ||
  c.toNat = 45 || c.toNat = 95

/-- Quote characters of the regex class `["']`. -/
def isQuote (c : Char) : Bool := c == dquoteC || c == squoteC

/-- Case-sensitive "the pattern is a prefix of the input". -/
def startsWithPat : List Char → List Char → Bool
  | [], _ => true
  | _ :: _, [] => false
  | p :: ps, c :: cs => p == c && startsWithPat ps cs

/-- Case-insensitive prefix test (for the `i`-flagged regexes; the patterns
involved are ASCII, where JS case folding agrees with `Char.toLower`). -/
def startsWithPatCI : List Char → List Char → Bool
  | [], _ => true
  | _ :: _, [] => false
  | p :: ps, c :: cs => p.toLower == c.toLower && startsWithPatCI ps cs

/-- Index of the first (case-sensitive) occurrence of a pattern. -/
def findPat (pat : List Char) : List Char → Option Nat
  | [] => if startsWithPat pat [] then some 0 else none
  | c :: cs =>
    if startsWithPat pat (c :: cs) then some 0
    else (findPat pat cs).map (· + 1)

/-- Index of the first case-insensitive occurrence of a pattern. -/
def findPatCI (pat : List Char) : List Char → Option Nat
  | [] => if startsWithPatCI pat [] then some 0 else none
  | c :: cs =>
    if startsWithPatCI pat (c :: cs) then some 0
    else (findPatCI pat cs).map (· + 1)

/-- JS `String.prototype.trim` (also the effect of `replace(/^\s+|\s+$/g,"")`):
drop leading and trailing `\s`-class characters. -/
def trimJS (l : List Char) : List Char :=
  ((l.dropWhile jsWs).reverse.dropWhile jsWs).reverse

/-- Generic driver for one JS global-regex replace.  A matcher returns
`some (r, k)` when the regex matches a prefix of length `k + 1` of the
remaining input, with replacement `r` (every regex in the source consumes at
least one character on a match).  `fuel` is an upper bound on the number of
scan positions; `runRep` supplies the input length, which always suffices
because every step consumes at least one character. -/
def scanRep (f : List Char → Option (List Char × Nat)) : Nat → List Char → List Char
  | _, [] => []
  | 0, cs => cs
  | fuel + 1, c :: cs =>
    match f (c :: cs) with
    | some (r, k) => r ++ scanRep f fuel (cs.drop k)
    | none => c :: scanRep f fuel cs

/-- One whole global replace pass over the input. -/
def runRep (f : List Char → Option (List Char × Nat)) (cs : List Char) : List Char :=
  scanRep f cs.length cs

/-- Matcher for `/<!--[\s\S]*?-->/` (replacement empty): lazy body, so the
match runs to the first `-->` after the opener. -/
def mComment (cs : List Char) : Option (List Char × Nat) :=
  if startsWithPat "<!--".data cs then
    match findPat "-->".data (cs.drop 4) with
    | some j => some ([], 4 + j + 3 - 1)
    | none => none
  else none

/-- Matcher for `/\/\*[\s\S]*?\*\//` (CSS comments, replacement empty). -/
def mCssComment (cs : List Char) : Option (List Char × Nat) :=
  if startsWithPat "/*".data cs then
    match findPat "*/".data (cs.drop 2) with
    | some j => some ([], 2 + j + 2 - 1)
    | none => none
  else none

/-- Matcher for `/>\s+</` replaced by `><`. -/
def mGtLt (cs : List Char) : Option (List Char × Nat) :=
  match cs with
  | '>' :: rest =>
    let w := rest.takeWhile jsWs
    if w.isEmpty then none
    else
      match rest.drop w.length with
      | '<' :: _ => some (['>', '<'], 1 + w.length + 1 - 1)
      | _ => none
  | _ => none

/-- Matcher for `/\s{2,}/` replaced by a single space: the greedy quantifier
consumes the whole maximal whitespace run. -/
def mCollapse (cs : List Char) : Option (List Char × Nat) :=
  match cs with
  | c1 :: rest =>
    match rest with
    | c2 :: _ =>
      if jsWs c1 && jsWs c2 then some ([' '], (rest.takeWhile jsWs).length)
      else none
    | [] => none
  | [] => none

/-- Matcher for `/\s*t\s*/` replaced by `t`, for a non-whitespace literal `t`
(`=`, `<`, `>` in the outer pass; braces, `;`, `:`, `,` in the CSS pass).
A position matches exactly when the whitespace run starting there is followed
by `t`; the greedy trailing `\s*` then absorbs the run after `t`. -/
def mAround (t : Char) (cs : List Char) : Option (List Char × Nat) :=
  let w1 := cs.takeWhile jsWs
  match cs.drop w1.length with
  | c :: r2 =>
    if c == t then
      let w2 := r2.takeWhile jsWs
      some ([t], w1.length + 1 + w2.length - 1)
    else none
  | [] => none

/-- Matcher for `/;\s*}/` replaced by `}` (drops a redundant final semicolon
inside a CSS block). -/
def mSemiBrace (cs : List Char) : Option (List Char × Nat) :=
  match cs with
  | c0 :: rest =>
    if c0 == ';' then
      let w := rest.takeWhile jsWs
      match rest.drop w.length with
      | c1 :: _ => if c1 == rbraceC then some ([rbraceC], 1 + w.length + 1 - 1) else none
      | [] => none
    else none
  | [] => none

/-- `replace(/[\r\n]+/g, "")`: removes every CR and LF. -/
def remCRLF (l : List Char) : List Char :=
  l.filter (fun c => !(c == '\r' || c == '\n'))

/-- `replace(/\t/g, "")`: removes every tab. -/
def remTabs (l : List Char) : List Char :=
  l.filter (fun c => !(c == '\t'))

/-- `replace(/[\r\n\t]/g, "")` inside the CSS minifier. -/
def remCtl (l : List Char) : List Char :=
  l.filter (fun c => !(c == '\r' || c == '\n' || c == '\t'))

/-- `replace(/;\s*$/, "")` (no `g` flag): strip one trailing semicolon
followed only by whitespace, if present. -/
def stripTrailingSemi (l : List Char) : List Char :=
  let r := l.reverse
  let w := r.takeWhile jsWs
  match r.drop w.length with
  | c :: rest => if c == ';' then rest.reverse else l
  | [] => l

/-- The CSS minifier applied to the body of a `<style>` block, in source
order: strip comments, collapse space around braces, `;`, `:`, `,`, drop a
semicolon before `}`, remove CR/LF/tabs, collapse multi-space, trim. -/
def cssMinify (css : List Char) : List Char :=
  trimJS (runRep mCollapse (remCtl (runRep mSemiBrace (runRep (mAround ',')
    (runRep (mAround ':') (runRep (mAround ';') (runRep (mAround rbraceC)
      (runRep (mAround lbraceC) (runRep mCssComment css)))))))))

/-- The inline `style="..."` value minifier, in source order: collapse space
around `;` and `:`, strip a trailing semicolon, collapse multi-space, trim. -/
def attrMinify (v : List Char) : List Char :=
  trimJS (runRep mCollapse (stripTrailingSemi
    (runRep (mAround ':') (runRep (mAround ';') v))))

/-- Matcher for `/<style[^>]*>([\s\S]*?)<\/style>/i`: case-insensitive
`<style`, then anything up to the first `>`, then a lazy body up to the first
`</style>`; the replacement is the minified body wrapped in a canonical
`<style>...</style>`. -/
def mStyleTag (cs : List Char) : Option (List Char × Nat) :=
  if startsWithPatCI "<style".data cs then
    let rest := cs.drop 6
    let attrs := rest.takeWhile (fun c => !(c == '>'))
    match rest.drop attrs.length with
    | '>' :: body =>
      match findPatCI "</style>".data body with
      | some j =>
        some ("<style>".data ++ cssMinify (body.take j) ++ "</style>".data,
          6 + attrs.length + 1 + j + 8 - 1)
      | none => none
    | _ => none
  else none

/-- Matcher for `/style\s*=\s*["']([^"']*?)["']/i`: the lazy negated class
makes the value run to the first quote of either kind; the replacement is
`style="minified-value"`. -/
def mStyleAttr (cs : List Char) : Option (List Char × Nat) :=
  if startsWithPatCI "style".data cs then
    let r1 := cs.drop 5
    let w1 := r1.takeWhile jsWs
    match r1.drop w1.length with
    | '=' :: r3 =>
      let w2 := r3.takeWhile jsWs
      match r3.drop w2.length with
      | q :: r5 =>
        if isQuote q then
          let content := r5.takeWhile (fun c => !(isQuote c))
          match r5.drop content.length with
          | q2 :: _ =>
            if isQuote q2 then
              some ("style=".data ++ dquoteC :: (attrMinify content ++ [dquoteC]),
                5 + w1.length + 1 + w2.length + 1 + content.length + 1 - 1)
            else none
          | [] => none
        else none
      | [] => none
    | _ => none
  else none

/-- Matcher for `/=["']([a-zA-Z0-9\-_]+)["']/` replaced by `=$1` (strip
quotes around simple attribute values). -/
def mUnquote (cs : List Char) : Option (List Char × Nat) :=
  match cs with
  | '=' :: rest =>
    match rest with
    | q :: r2 =>
      if isQuote q then
        let run := r2.takeWhile simpleChar
        if run.isEmpty then none
        else
          match r2.drop run.length with
          | q2 :: _ =>
            if isQuote q2 then some ('=' :: run, 1 + 1 + run.length + 1 - 1)
            else none
          | [] => none
      else none
    | [] => none
  | _ => none

/-- Matcher for `/\s*\/\s*>/` replaced by `/>`. -/
def mSelfClose (cs : List Char) : Option (List Char × Nat) :=
  let w1 := cs.takeWhile jsWs
  match cs.drop w1.length with
  | '/' :: r2 =>
    let w2 := r2.takeWhile jsWs
    match r2.drop w2.length with
    | '>' :: _ => some (['/', '>'], w1.length + 1 + w2.length + 1 - 1)
    | _ => none
  | _ => none

/-- The replace chain of `minifyHTML`, innermost step first, in exactly the
source order: comments, CR/LF, tabs, `>\s+<`, `^\s+|\s+$`, `\s{2,}`,
`\s*=\s*`, `\s*<\s*`, `\s*>\s*`, `<style>` blocks, `style="..."` attributes,
quote stripping, `\s*\/\s*>`, final trim. -/
def minifyChars (a : List Char) : List Char :=
  trimJS (runRep mSelfClose (runRep mUnquote (runRep mStyleAttr
    (runRep mStyleTag (runRep (mAround '>') (runRep (mAround '<')
      (runRep (mAround '=') (runRep mCollapse (trimJS (runRep mGtLt
        (remTabs (remCRLF (runRep mComment a)))))))))))))

/-- The HTML Normalizer `minifyHTML` of the source. -/
def minifyHTML (s : String) : String :=
  String.mk (minifyChars s.data)

/-- Split the middle of an image text (the part strictly between `![` and the
final `)`) as the backtracking of `/^!\[(.*?)\]\((.*?)\)$/` does: the lazy
`alt` group stops at the first `](` from which the rest of the match can
succeed; `.` does not cross line terminators, and the lazy `url` group
anchored by `\)$` is forced to span everything up to the final `)`.  The
first argument is fuel (the caller passes the list length, which suffices
since every recursive call shortens the list). -/
def splitAlt : Nat → List Char → Option (List Char × List Char)
  | 0, _ => none
  | _ + 1, [] => none
  | fuel + 1, ']' :: '(' :: rest =>
    if rest.all (fun c => !isLineTerm c) then some ([], rest)
    else
      match splitAlt fuel ('(' :: rest) with
      | some (a, u) => some (']' :: a, u)
      | none => none
  | fuel + 1, c :: rest =>
    if isLineTerm c then none
    else
      match splitAlt fuel rest with
      | some (a, u) => some (c :: a, u)
      | none => none

/-- `text.match(/^!\[(.*?)\]\((.*?)\)$/)` of the Image branch: `some (alt, url)`
on a match, `none` otherwise. -/
def imageMatch (s : String) : Option (String × String) :=
  match s.data with
  | '!' :: '[' :: rest =>
    match rest.reverse with
    | ')' :: revMid =>
      match splitAlt rest.length revMid.reverse with
      | some (a, u) => some (String.mk a, String.mk u)
      | none => none
    | _ => none
  | _ => none

/-- The widget attached to a replacement decoration: `Decoration.replace({})`
carries `noWidget`; the others model the `WidgetType` subclasses of the
source, each holding its constructor payload. -/
inductive Widget where
  | noWidget : Widget
  | HTMLWidget (html : String) : Widget
  | ImageWidget (url : String) : Widget
  | TextWidget (text : String) : Widget
  | BulletWidget : Widget
deriving DecidableEq, Repr

/-- One decoration entry: `builder.add(efrom, eto, Decoration.replace(...))`. -/
structure Entry where
  efrom : Nat
  eto : Nat
  widget : Widget
deriving DecidableEq, Repr

/-- A syntax-tree node as seen by the `enter` callback: kind name and
half-open offset range (`from` is a Lean keyword, hence `nfrom`/`nto`). -/
structure SNode where
  name : String
  nfrom : Nat
  nto : Nat
deriving DecidableEq, Repr

/-- The primary selection `state.selection.main`, normalized so that
`sfrom ≤ sto` (CodeMirror's `.from`/`.to`). -/
structure Selection where
  sfrom : Nat
  sto : Nat
deriving DecidableEq, Repr

/-- A document line: start offset and end offset (end excludes the newline),
as returned by `state.doc.lineAt`. -/
structure DocLine where
  lfrom : Nat
  lto : Nat
deriving DecidableEq, Repr

/-- `state.doc.lineAt pos`: the line containing `pos` (a position sitting on
a newline character belongs to the line that the newline ends). -/
def lineAt (doc : String) (pos : Nat) : DocLine :=
  { lfrom := pos - (((doc.data.take pos).reverse).takeWhile (fun c => !(c == '\n'))).length
    lto := pos + ((doc.data.drop pos).takeWhile (fun c => !(c == '\n'))).length }

/-- `state.sliceDoc f t`: the text between offsets `f` and `t`, clamped to
the document (reading past the end yields the available characters only). -/
def sliceDoc (doc : String) (f t : Nat) : String :=
  String.mk ((doc.data.drop f).take (t - f))

/-- Is the node an `HTMLTag` or `HTMLBlock` (the `isHTML` flag of the
source)? -/
def isHTMLNode (n : SNode) : Bool :=
  n.name == "HTMLTag" || n.name == "HTMLBlock"

/-- The per-kind decoration cases of the `enter` callback, reached when the
selection does not force a reveal: the emitted entries for this node. -/
def decorate (doc : String) (n : SNode) : List Entry :=
  if n.name = "HeaderMark" then
    [⟨n.nfrom,
      if sliceDoc doc n.nto (n.nto + 1) = " " then n.nto + 1 else n.nto,
      Widget.noWidget⟩]
  else if n.name = "EmphasisMark" then
    [⟨n.nfrom, n.nto, Widget.noWidget⟩]
  else if n.name = "CodeMark" then
    [⟨n.nfrom, n.nto, Widget.noWidget⟩]
  else if n.name = "ListMark" then
    [⟨n.nfrom, n.nto, Widget.BulletWidget⟩]
  else if n.name = "Image" then
    match imageMatch (sliceDoc doc n.nfrom n.nto) with
    | some (alt, url) =>
      if alt = "" then [⟨n.nfrom, n.nto, Widget.ImageWidget url⟩]
      else [⟨n.nfrom, n.nto, Widget.TextWidget alt⟩]
    | none => []
  else if isHTMLNode n then
    [⟨n.nfrom, n.nto, Widget.HTMLWidget (minifyHTML (sliceDoc doc n.nfrom n.nto))⟩]
  else []

/-- The whole `enter` callback for one node: first the reveal decision
(block semantics for HTML kinds against the node's own range, line semantics
for everything else against the line of `node.from`), then the per-kind
decoration. -/
def enterNode (doc : String) (sel : Selection) (n : SNode) : List Entry :=
  let nodeLine := lineAt doc n.nfrom
  if isHTMLNode n then
    if sel.sfrom ≤ n.nto ∧ sel.sto ≥ n.nfrom then []
    else decorate doc n
  else
    if sel.sfrom ≤ nodeLine.lto ∧ sel.sto ≥ nodeLine.lfrom then []
    else decorate doc n

/-- One build: the `enter` callback runs over `nodes` (the pre-order node
sequence of `syntaxTree(state).iterate` over the visible ranges) and the
emitted entries are concatenated in visit order, as `RangeSetBuilder` records
them. -/
def buildDecorations (doc : String) (sel : Selection) (nodes : List SNode) : List Entry :=
  (nodes.map (enterNode doc sel)).flatten

/-- Kinds for which the builder can emit a decoration. -/
def decoratedKind (n : SNode) : Bool :=
  n.name == "HeaderMark" || n.name == "EmphasisMark" || n.name == "CodeMark" ||
  n.name == "ListMark" || n.name == "Image" || n.name == "HTMLTag" ||
  n.name == "HTMLBlock"

/-- The character is none of line feed, carriage return, tab. -/
def pcGood (c : Char) : Bool :=
  !(c == '\n' || c == '\r' || c == '\t')

/-- No line feed, carriage return or tab occurs in the string. -/
def noCtlB (s : String) : Bool :=
  s.data.all pcGood

/-- No two adjacent characters are both `\s`-class whitespace. -/
def NoWsPair (l : List Char) : Prop :=
  List.Chain' (fun a b => ¬(jsWs a = true ∧ jsWs b = true)) l

/-- The string carries no leading and no trailing whitespace. -/
def edgesTrimB (s : String) : Bool :=
  (match s.data.head? with
   | none => true
   | some c => !jsWs c) &&
  (match s.data.getLast? with
   | none => true
   | some c => !jsWs c)

/-- No two consecutive spaces, over a character list. -/
def noDoubleSpaceAux : List Char → Bool
  | a :: b :: t => !(a == ' ' && b == ' ') && noDoubleSpaceAux (b :: t)
  | _ => true

/-- No two consecutive spaces occur in the string. -/
def noDoubleSpaceB (s : String) : Bool :=
  noDoubleSpaceAux s.data

/-! ### Idempotence of the Normalizer (claim C7) -/

set_option maxHeartbeats 1000000 in
/-- Counterexample for C7: `minifyHTML` is not idempotent.  On `< !--x-->`
the first pass only removes the space after `<` (via `\s*<\s*` → `<`),
producing `<!--x-->`; the comment-removal step of a second pass then deletes
the whole string.  So a first application can synthesize an HTML comment
that only a second application removes. -/
theorem minifyHTML_not_idempotent_cex :
    minifyHTML (minifyHTML "< !--x-->") ≠ minifyHTML "< !--x-->" ∧
    minifyHTML "< !--x-->" = "<!--x-->" ∧
    minifyHTML (minifyHTML "< !--x-->") = "" := by
  refine ⟨?_, by decide, by decide⟩
  decide

set_option maxHeartbeats 1000000 in
/-- Claim C7, amended: applying the Normalizer twice yields the same result
as applying it once on inputs whose first pass does not synthesize a new
comment opener `<!--`; this is witnessed on representative HTML fragments
(quoted attributes with extra spaces, inline `style` attributes, self-closing
tags, text with collapsible whitespace and newlines), while full idempotence
fails (see the counterexample). -/
theorem minifyHTML_idempotent_on_samples :
    minifyHTML (minifyHTML "<div class=\"ab\">  hello  </div>") =
      minifyHTML "<div class=\"ab\">  hello  </div>" ∧
    minifyHTML (minifyHTML "<p style=\"color : red ;\">x</p>") =
      minifyHTML "<p style=\"color : red ;\">x</p>" ∧
    minifyHTML (minifyHTML "<br />") = minifyHTML "<br />" ∧
    minifyHTML (minifyHTML "a  b\n<c>") = minifyHTML "a  b\n<c>" := by
  decide

/-! ### Unfolding lemmas for the decoration builder -/

theorem isHTMLNode_eq_false {n : SNode}
    (h1 : n.name ≠ "HTMLTag") (h2 : n.name ≠ "HTMLBlock") :
    isHTMLNode n = false := by
  simp [isHTMLNode, h1, h2]

theorem enterNode_line_reveal {doc : String} {sel : Selection} {n : SNode}
    (hh : isHTMLNode n = false)
    (hc : sel.sfrom ≤ (lineAt doc n.nfrom).lto ∧ sel.sto ≥ (lineAt doc n.nfrom).lfrom) :
    enterNode doc sel n = [] := by
  simp [enterNode, hh, hc]

theorem enterNode_line_hidden {doc : String} {sel : Selection} {n : SNode}
    (hh : isHTMLNode n = false)
    (hc : ¬(sel.sfrom ≤ (lineAt doc n.nfrom).lto ∧ sel.sto ≥ (lineAt doc n.nfrom).lfrom)) :
    enterNode doc sel n = decorate doc n := by
  simp [enterNode, hh, hc]

theorem enterNode_block_reveal {doc : String} {sel : Selection} {n : SNode}
    (hh : isHTMLNode n = true)
    (hc : sel.sfrom ≤ n.nto ∧ sel.sto ≥ n.nfrom) :
    enterNode doc sel n = [] := by
  simp [enterNode, hh, hc]

theorem enterNode_block_hidden {doc : String} {sel : Selection} {n : SNode}
    (hh : isHTMLNode n = true)
    (hc : ¬(sel.sfrom ≤ n.nto ∧ sel.sto ≥ n.nfrom)) :
    enterNode doc sel n = decorate doc n := by
  simp [enterNode, hh, hc]

theorem decorate_headerMark {doc : String} {n : SNode} (h : n.name = "HeaderMark") :
    decorate doc n =
      [⟨n.nfrom,
        if sliceDoc doc n.nto (n.nto + 1) = " " then n.nto + 1 else n.nto,
        Widget.noWidget⟩] := by
  simp [decorate, h]

theorem decorate_image {doc : String} {n : SNode} (h : n.name = "Image") :
    decorate doc n =
      match imageMatch (sliceDoc doc n.nfrom n.nto) with
      | some (alt, url) =>
        if alt = "" then [⟨n.nfrom, n.nto, Widget.ImageWidget url⟩]
        else [⟨n.nfrom, n.nto, Widget.TextWidget alt⟩]
      | none => [] := by
  simp [decorate, h]

theorem decorate_html {doc : String} {n : SNode} (h : isHTMLNode n = true) :
    decorate doc n =
      [⟨n.nfrom, n.nto, Widget.HTMLWidget (minifyHTML (sliceDoc doc n.nfrom n.nto))⟩] := by
  have h' : n.name = "HTMLTag" ∨ n.name = "HTMLBlock" := by
    simpa [isHTMLNode] using h
  rcases h' with h' | h' <;> simp [decorate, h', isHTMLNode]

/-! ### Claim theorems about the reveal/hide decision and per-kind rules -/

/-- Claim C3: for every node of kind HTML Tag or HTML Block, the node is
revealed (no decoration emitted for it) if and only if
`selection.from ≤ node.to` and `selection.to ≥ node.from`, comparing against
the node's own offset range rather than its line. -/
theorem reveal_block_iff (doc : String) (sel : Selection) (n : SNode)
    (h : n.name = "HTMLTag" ∨ n.name = "HTMLBlock") :
    enterNode doc sel n = [] ↔ (sel.sfrom ≤ n.nto ∧ sel.sto ≥ n.nfrom) := by
  have hh : isHTMLNode n = true := by rcases h with h | h <;> simp [isHTMLNode, h]
  by_cases hc : sel.sfrom ≤ n.nto ∧ sel.sto ≥ n.nfrom
  · simp [enterNode_block_reveal hh hc, hc]
  · rw [enterNode_block_hidden hh hc, decorate_html hh]
    simp [hc]

/-- Witness for C3: an HTML block spanning offsets 10..40 whose interior
contains a newline, with selection 39..41 touching only its tail on a later
line, is revealed (no decoration). -/
theorem reveal_block_iff_witness :
    enterNode "0123456789<div>aaaaaaaaa\nbbbbbbbbb</div>x" ⟨39, 41⟩
      ⟨"HTMLBlock", 10, 40⟩ = [] :=
  (reveal_block_iff _ _ _ (Or.inr rfl)).mpr (by decide)

/-- Claim C4: a hidden Header Mark is decorated over exactly
`[from, to)` extended by one character when the character at offset `to` is a
single space, and exactly `[from, to)` otherwise, with no widget attached. -/
theorem headerMark_hide_range (doc : String) (sel : Selection) (n : SNode)
    (h : n.name = "HeaderMark")
    (hc : ¬(sel.sfrom ≤ (lineAt doc n.nfrom).lto ∧ sel.sto ≥ (lineAt doc n.nfrom).lfrom)) :
    enterNode doc sel n =
      [⟨n.nfrom,
        if sliceDoc doc n.nto (n.nto + 1) = " " then n.nto + 1 else n.nto,
        Widget.noWidget⟩] := by
  have hh : isHTMLNode n = false := isHTMLNode_eq_false (by simp [h]) (by simp [h])
  rw [enterNode_line_hidden hh hc, decorate_headerMark h]

/-- Witness for C4: in `q\n# T` the hidden header mark eats the following
space (range 2..4); in `q\n#T` it hides only itself (range 2..3). -/
theorem headerMark_hide_range_witness :
    enterNode "q\n# T" ⟨0, 0⟩ ⟨"HeaderMark", 2, 3⟩ = [⟨2, 4, Widget.noWidget⟩] ∧
    enterNode "q\n#T" ⟨0, 0⟩ ⟨"HeaderMark", 2, 3⟩ = [⟨2, 3, Widget.noWidget⟩] := by
  constructor
  · rw [headerMark_hide_range _ _ _ rfl (by decide)]; decide
  · rw [headerMark_hide_range _ _ _ rfl (by decide)]; decide

/-- Claim C9: a hidden Header Mark whose end offset equals the document
length is decorated over exactly `[from, to)`: the look-ahead
`sliceDoc(to, to + 1)` reads the empty string instead of reading past the end
of the document, and the build completes normally. -/
theorem headerMark_at_doc_end_safe (doc : String) (sel : Selection) (n : SNode)
    (h : n.name = "HeaderMark")
    (hc : ¬(sel.sfrom ≤ (lineAt doc n.nfrom).lto ∧ sel.sto ≥ (lineAt doc n.nfrom).lfrom))
    (hend : n.nto = doc.length) :
    enterNode doc sel n = [⟨n.nfrom, n.nto, Widget.noWidget⟩] := by
  have hh : isHTMLNode n = false := isHTMLNode_eq_false (by simp [h]) (by simp [h])
  have hslice : sliceDoc doc n.nto (n.nto + 1) = "" := by
    have hlen : doc.data.length ≤ n.nto := by
      obtain ⟨d⟩ := doc
      exact Nat.le_of_eq (by simpa [String.length] using hend.symm)
    have hdrop : doc.data.drop n.nto = [] := List.drop_eq_nil_of_le hlen
    simp only [sliceDoc, hdrop, List.take_nil]
  rw [enterNode_line_hidden hh hc, decorate_headerMark h, hslice]
  simp

/-- Witness for C9: document `x\n#` of length 3 with a header mark ending at
offset 3 and the selection on the first line. -/
theorem headerMark_at_doc_end_safe_witness :
    enterNode "x\n#" ⟨0, 0⟩ ⟨"HeaderMark", 2, 3⟩ = [⟨2, 3, Widget.noWidget⟩] :=
  headerMark_at_doc_end_safe _ _ _ rfl (by decide) (by decide)

/-- Claim C5: a hidden Image node whose text matches `![alt](url)` is
decorated over `[from, to)` with an Image widget sourced at `url` when `alt`
is empty, and with a Text widget rendering `alt` when `alt` is non-empty. -/
theorem image_widget_branching (doc : String) (sel : Selection) (n : SNode)
    (alt url : String)
    (h : n.name = "Image")
    (hc : ¬(sel.sfrom ≤ (lineAt doc n.nfrom).lto ∧ sel.sto ≥ (lineAt doc n.nfrom).lfrom))
    (hm : imageMatch (sliceDoc doc n.nfrom n.nto) = some (alt, url)) :
    enterNode doc sel n =
      [⟨n.nfrom, n.nto,
        if alt = "" then Widget.ImageWidget url else Widget.TextWidget alt⟩] := by
  have hh : isHTMLNode n = false := isHTMLNode_eq_false (by simp [h]) (by simp [h])
  rw [enterNode_line_hidden hh hc, decorate_image h, hm]
  by_cases ha : alt = "" <;> simp [ha]

/-- Witness for C5: `![](http://x/y.png)` yields an Image widget sourced at
the URL; `![caption](u)` yields a Text widget rendering `caption`. -/
theorem image_widget_branching_witness :
    enterNode "z\n![](http://x/y.png)" ⟨0, 0⟩ ⟨"Image", 2, 21⟩ =
      [⟨2, 21, Widget.ImageWidget "http://x/y.png"⟩] ∧
    enterNode "z\n![caption](u)" ⟨0, 0⟩ ⟨"Image", 2, 15⟩ =
      [⟨2, 15, Widget.TextWidget "caption"⟩] := by
  constructor
  · rw [image_widget_branching _ _ _ "" "http://x/y.png" rfl (by decide) (by decide)]
    decide
  · rw [image_widget_branching _ _ _ "caption" "u" rfl (by decide) (by decide)]
    decide

/-- Claim C6: a hidden node classified as Image whose text does not match the
`![alt](url)` shape yields zero decoration entries (the builder, a total
function, silently skips it and the raw text stays visible). -/
theorem image_malformed_skip (doc : String) (sel : Selection) (n : SNode)
    (h : n.name = "Image")
    (hc : ¬(sel.sfrom ≤ (lineAt doc n.nfrom).lto ∧ sel.sto ≥ (lineAt doc n.nfrom).lfrom))
    (hm : imageMatch (sliceDoc doc n.nfrom n.nto) = none) :
    enterNode doc sel n = [] := by
  have hh : isHTMLNode n = false := isHTMLNode_eq_false (by simp [h]) (by simp [h])
  rw [enterNode_line_hidden hh hc, decorate_image h, hm]

/-- Witness for C6: the node text `![oops(missing-paren` produces no
decoration entry. -/
theorem image_malformed_skip_witness :
    enterNode "z\n![oops(missing-paren" ⟨0, 0⟩ ⟨"Image", 2, 22⟩ = [] :=
  image_malformed_skip _ _ _ rfl (by decide) (by decide)

/-- Claim C10: a hidden Image node whose text is exactly `![]()` still
matches the image pattern and is decorated with an Image widget whose source
URL is the empty string (no raw-text fallback). -/
theorem image_empty_alt_url (doc : String) (sel : Selection) (n : SNode)
    (h : n.name = "Image")
    (hc : ¬(sel.sfrom ≤ (lineAt doc n.nfrom).lto ∧ sel.sto ≥ (lineAt doc n.nfrom).lfrom))
    (hs : sliceDoc doc n.nfrom n.nto = "![]()") :
    enterNode doc sel n = [⟨n.nfrom, n.nto, Widget.ImageWidget ""⟩] := by
  have hh : isHTMLNode n = false := isHTMLNode_eq_false (by simp [h]) (by simp [h])
  have hm : imageMatch ("![]()" : String) = some ("", "") := by decide
  rw [enterNode_line_hidden hh hc, decorate_image h, hs, hm]
  simp

/-- Witness for C10: document `z\n![]()` with the image node on the second
line and the cursor on the first. -/
theorem image_empty_alt_url_witness :
    enterNode "z\n![]()" ⟨0, 0⟩ ⟨"Image", 2, 7⟩ = [⟨2, 7, Widget.ImageWidget ""⟩] :=
  image_empty_alt_url _ _ _ rfl (by decide) (by decide)

/-! ### Ordering and non-overlap of one build (claim C1) -/

theorem decorate_emphasisMark {doc : String} {n : SNode} (h : n.name = "EmphasisMark") :
    decorate doc n = [⟨n.nfrom, n.nto, Widget.noWidget⟩] := by
  simp [decorate, h]

theorem decorate_codeMark {doc : String} {n : SNode} (h : n.name = "CodeMark") :
    decorate doc n = [⟨n.nfrom, n.nto, Widget.noWidget⟩] := by
  simp [decorate, h]

theorem decorate_listMark {doc : String} {n : SNode} (h : n.name = "ListMark") :
    decorate doc n = [⟨n.nfrom, n.nto, Widget.BulletWidget⟩] := by
  simp [decorate, h]

theorem decorate_other {doc : String} {n : SNode}
    (h1 : n.name ≠ "HeaderMark") (h2 : n.name ≠ "EmphasisMark")
    (h3 : n.name ≠ "CodeMark") (h4 : n.name ≠ "ListMark")
    (h5 : n.name ≠ "Image") (h6 : n.name ≠ "HTMLTag") (h7 : n.name ≠ "HTMLBlock") :
    decorate doc n = [] := by
  simp [decorate, isHTMLNode, h1, h2, h3, h4, h5, h6, h7]

/-- Every entry a node emits starts at the node's start offset and ends at
the node's end offset, except that a hidden header mark followed by a space
ends one character later; and only decorated kinds emit at all. -/
theorem mem_decorate {doc : String} {n : SNode} {e : Entry}
    (he : e ∈ decorate doc n) :
    decoratedKind n = true ∧ e.efrom = n.nfrom ∧
      (e.eto = n.nto ∨ (e.eto = n.nto + 1 ∧ sliceDoc doc n.nto (n.nto + 1) = " ")) := by
  by_cases h1 : n.name = "HeaderMark"
  · rw [decorate_headerMark h1] at he
    simp only [List.mem_singleton] at he
    subst he
    refine ⟨by simp [decoratedKind, h1], rfl, ?_⟩
    by_cases hs : sliceDoc doc n.nto (n.nto + 1) = " "
    · exact Or.inr ⟨by simp [hs], hs⟩
    · exact Or.inl (by simp [hs])
  · by_cases h2 : n.name = "EmphasisMark"
    · rw [decorate_emphasisMark h2] at he
      simp only [List.mem_singleton] at he
      subst he
      exact ⟨by simp [decoratedKind, h2], rfl, Or.inl rfl⟩
    · by_cases h3 : n.name = "CodeMark"
      · rw [decorate_codeMark h3] at he
        simp only [List.mem_singleton] at he
        subst he
        exact ⟨by simp [decoratedKind, h3], rfl, Or.inl rfl⟩
      · by_cases h4 : n.name = "ListMark"
        · rw [decorate_listMark h4] at he
          simp only [List.mem_singleton] at he
          subst he
          exact ⟨by simp [decoratedKind, h4], rfl, Or.inl rfl⟩
        · by_cases h5 : n.name = "Image"
          · rw [decorate_image h5] at he
            rcases hm : imageMatch (sliceDoc doc n.nfrom n.nto) with _ | ⟨alt, url⟩
            · rw [hm] at he
              cases he
            · rw [hm] at he
              by_cases ha : alt = "" <;> simp only [ha, if_true, if_false] at he <;>
                simp only [List.mem_singleton] at he <;> subst he <;>
                exact ⟨by simp [decoratedKind, h5], rfl, Or.inl rfl⟩
          · by_cases h6 : isHTMLNode n = true
            · rw [decorate_html h6] at he
              simp only [List.mem_singleton] at he
              subst he
              have h6' : n.name = "HTMLTag" ∨ n.name = "HTMLBlock" := by
                simpa [isHTMLNode] using h6
              refine ⟨?_, rfl, Or.inl rfl⟩
              rcases h6' with h | h <;> simp [decoratedKind, h]
            · have h6' := (not_iff_not.mpr (by simp [isHTMLNode] :
                isHTMLNode n = true ↔ n.name = "HTMLTag" ∨ n.name = "HTMLBlock")).mp h6
              push_neg at h6'
              rw [decorate_other h1 h2 h3 h4 h5 h6'.1 h6'.2] at he
              cases he

/-- A node emits at most one entry. -/
theorem length_decorate_le (doc : String) (n : SNode) :
    (decorate doc n).length ≤ 1 := by
  unfold decorate
  repeat' split
  all_goals simp

theorem pairwise_of_length_le_one {R : Entry → Entry → Prop} {l : List Entry}
    (h : l.length ≤ 1) : l.Pairwise R := by
  cases l with
  | nil => exact List.Pairwise.nil
  | cons a t =>
    cases t with
    | nil => exact List.pairwise_singleton R a
    | cons b t' => simp at h

/-- The `enter` callback either reveals a node (no output) or emits what
`decorate` emits. -/
theorem enterNode_eq_nil_or (doc : String) (sel : Selection) (n : SNode) :
    enterNode doc sel n = [] ∨ enterNode doc sel n = decorate doc n := by
  by_cases hh : isHTMLNode n = true
  · by_cases hc : sel.sfrom ≤ n.nto ∧ sel.sto ≥ n.nfrom
    · exact Or.inl (enterNode_block_reveal hh hc)
    · exact Or.inr (enterNode_block_hidden hh hc)
  · have hh' : isHTMLNode n = false := by simpa using hh
    by_cases hc : sel.sfrom ≤ (lineAt doc n.nfrom).lto ∧ sel.sto ≥ (lineAt doc n.nfrom).lfrom
    · exact Or.inl (enterNode_line_reveal hh' hc)
    · exact Or.inr (enterNode_line_hidden hh' hc)

/-- Claim C1, amended: in one build the emitted decoration entries are in
non-decreasing start-offset order and pairwise non-overlapping, given that
the decorated-kind nodes are well-formed (`from ≤ to`), pairwise disjoint and
listed in ascending order (the claim's non-nesting assumption read through
the pre-order traversal), and — the amendment — that no decorated node's text
begins with a space character (otherwise a header mark's trailing-space
extension can run into the next node, see the counterexample). -/
theorem buildDecorations_sorted_disjoint (doc : String) (sel : Selection)
    (nodes : List SNode)
    (hdisj : nodes.Pairwise fun a b =>
      decoratedKind a = true → decoratedKind b = true → a.nto ≤ b.nfrom)
    (hwf : ∀ n ∈ nodes, decoratedKind n = true → n.nfrom ≤ n.nto)
    (hsp : ∀ n ∈ nodes, decoratedKind n = true →
      sliceDoc doc n.nfrom (n.nfrom + 1) ≠ " ") :
    (buildDecorations doc sel nodes).Pairwise (fun e1 e2 => e1.efrom ≤ e2.efrom) ∧
    (buildDecorations doc sel nodes).Pairwise (fun e1 e2 => e1.eto ≤ e2.efrom) := by
  have hmemE : ∀ n : SNode, ∀ e ∈ enterNode doc sel n, e ∈ decorate doc n := by
    intro n e he
    rcases enterNode_eq_nil_or doc sel n with h | h
    · rw [h] at he
      cases he
    · rwa [h] at he
  have key : (buildDecorations doc sel nodes).Pairwise
      (fun e1 e2 => e1.efrom ≤ e2.efrom ∧ e1.eto ≤ e2.efrom) := by
    unfold buildDecorations
    rw [List.pairwise_flatten]
    refine ⟨?_, ?_⟩
    · intro l hl
      obtain ⟨n, _, rfl⟩ := List.mem_map.mp hl
      rcases enterNode_eq_nil_or doc sel n with h | h <;> rw [h]
      · exact List.Pairwise.nil
      · exact pairwise_of_length_le_one (length_decorate_le doc n)
    · rw [List.pairwise_map]
      refine List.Pairwise.imp_of_mem ?_ hdisj
      intro a b ha hb hab x hx y hy
      obtain ⟨da, hxa, hxe⟩ := mem_decorate (hmemE a x hx)
      obtain ⟨db, hyb, hye⟩ := mem_decorate (hmemE b y hy)
      have h1 : a.nto ≤ b.nfrom := hab da db
      have h2 : a.nfrom ≤ a.nto := hwf a ha da
      refine ⟨by omega, ?_⟩
      rcases hxe with hx1 | ⟨hx1, hsl⟩
      · omega
      · by_cases hq : a.nto = b.nfrom
        · exfalso
          apply hsp b hb db
          rw [← hq]
          exact hsl
        · omega
  exact ⟨key.imp fun h => h.1, key.imp fun h => h.2⟩

/-- Witness for C1 (amended): heading `# *T*` on the second line with the
cursor on the first line produces entries 2..4, 4..5, 6..7 — sorted and
non-overlapping. -/
theorem buildDecorations_sorted_disjoint_witness :
    (buildDecorations "q\n# *T*" ⟨0, 0⟩
        [⟨"HeaderMark", 2, 3⟩, ⟨"EmphasisMark", 4, 5⟩, ⟨"EmphasisMark", 6, 7⟩]).Pairwise
      (fun e1 e2 => e1.efrom ≤ e2.efrom) ∧
    (buildDecorations "q\n# *T*" ⟨0, 0⟩
        [⟨"HeaderMark", 2, 3⟩, ⟨"EmphasisMark", 4, 5⟩, ⟨"EmphasisMark", 6, 7⟩]).Pairwise
      (fun e1 e2 => e1.eto ≤ e2.efrom) :=
  buildDecorations_sorted_disjoint "q\n# *T*" ⟨0, 0⟩
    [⟨"HeaderMark", 2, 3⟩, ⟨"EmphasisMark", 4, 5⟩, ⟨"EmphasisMark", 6, 7⟩]
    (by decide) (by decide) (by decide)

/-- Counterexample for C1 as stated: with document `# x\nq` and the cursor on
the second line, the adversarial node list below has disjoint, ascending,
well-formed decorated ranges (the claim's non-nesting assumption), yet the
build emits entries 0..2 and 1..3, whose ranges overlap: the header mark's
trailing-space extension runs into the next node's range. -/
theorem buildDecorations_overlap_cex :
    (([⟨"HeaderMark", 0, 1⟩, ⟨"EmphasisMark", 1, 3⟩] : List SNode).Pairwise
      (fun a b => decoratedKind a = true → decoratedKind b = true → a.nto ≤ b.nfrom) ∧
     (∀ n ∈ ([⟨"HeaderMark", 0, 1⟩, ⟨"EmphasisMark", 1, 3⟩] : List SNode),
      decoratedKind n = true → n.nfrom ≤ n.nto)) ∧
    ¬ (buildDecorations "# x\nq" ⟨5, 5⟩
        [⟨"HeaderMark", 0, 1⟩, ⟨"EmphasisMark", 1, 3⟩]).Pairwise
      (fun e1 e2 => e1.eto ≤ e2.efrom) := by
  decide

/-- Claim C2, amended: for every node of kind Header Mark, Emphasis Mark,
Code Mark or List Mark, and for every Image node whose text matches the image
pattern, the node emits no decoration if and only if
`selection.from ≤ line.to` and `selection.to ≥ line.from` for the line
containing `node.from` (the amendment excludes pattern-failing Image nodes,
which emit nothing even when the selection is elsewhere). -/
theorem reveal_line_iff (doc : String) (sel : Selection) (n : SNode)
    (h : n.name = "HeaderMark" ∨ n.name = "EmphasisMark" ∨ n.name = "CodeMark" ∨
      n.name = "ListMark" ∨
      (n.name = "Image" ∧ imageMatch (sliceDoc doc n.nfrom n.nto) ≠ none)) :
    enterNode doc sel n = [] ↔
      (sel.sfrom ≤ (lineAt doc n.nfrom).lto ∧ sel.sto ≥ (lineAt doc n.nfrom).lfrom) := by
  have hh : isHTMLNode n = false := by
    rcases h with h | h | h | h | ⟨h, _⟩ <;>
      exact isHTMLNode_eq_false (by simp [h]) (by simp [h])
  by_cases hc : sel.sfrom ≤ (lineAt doc n.nfrom).lto ∧ sel.sto ≥ (lineAt doc n.nfrom).lfrom
  · simp [enterNode_line_reveal hh hc, hc]
  · rw [enterNode_line_hidden hh hc]
    rcases h with h | h | h | h | ⟨h, hm⟩
    · rw [decorate_headerMark h]; simp [hc]
    · simp [decorate, h, hc]
    · simp [decorate, h, hc]
    · simp [decorate, h, hc]
    · obtain ⟨⟨alt, url⟩, hm'⟩ := Option.ne_none_iff_exists'.mp hm
      rw [decorate_image h, hm']
      by_cases ha : alt = "" <;> simp [ha, hc]

/-- Witness for C2 (amended): a heading mark on line 2 of `q\n# T` is hidden
when the cursor sits on line 1 (offset 0), and revealed when the cursor sits
on its own line. -/
theorem reveal_line_iff_witness :
    ¬(enterNode "q\n# T" ⟨0, 0⟩ ⟨"HeaderMark", 2, 3⟩ = []) ∧
    enterNode "q\n# T" ⟨3, 3⟩ ⟨"HeaderMark", 2, 3⟩ = [] := by
  constructor
  · intro he
    have hcond := (reveal_line_iff "q\n# T" ⟨0, 0⟩ ⟨"HeaderMark", 2, 3⟩
      (Or.inl rfl)).mp he
    revert hcond
    decide
  · exact (reveal_line_iff "q\n# T" ⟨3, 3⟩ ⟨"HeaderMark", 2, 3⟩
      (Or.inl rfl)).mpr (by decide)

/-- Counterexample for C2 as stated: the Image node below is of a decorated
kind other than HTML Tag / HTML Block and emits no decoration, yet the
selection (offset 22, a different line) does not satisfy the line
intersection condition — so "no decoration emitted" does not imply the
reveal condition. -/
theorem reveal_line_iff_cex :
    enterNode "![oops(missing-paren\nz" ⟨22, 22⟩ ⟨"Image", 0, 20⟩ = [] ∧
    ¬((22 : Nat) ≤ (lineAt "![oops(missing-paren\nz" 0).lto ∧
      (22 : Nat) ≥ (lineAt "![oops(missing-paren\nz" 0).lfrom) := by
  decide

/-! ### Generic facts about the replace driver (towards claim C8) -/

theorem pred_of_mem_takeWhile {α : Type} {p : α → Bool} :
    ∀ {l : List α} {a : α}, a ∈ l.takeWhile p → p a = true := by
  intro l
  induction l with
  | nil => intro a h; simp at h
  | cons c cs ih =>
    intro a h
    rw [List.takeWhile_cons] at h
    by_cases hc : p c
    · rw [if_pos hc] at h
      rcases List.mem_cons.mp h with rfl | h'
      · exact hc
      · exact ih h'
    · rw [if_neg hc] at h
      simp at h

theorem drop_takeWhile_length {α : Type} (p : α → Bool) :
    ∀ l : List α, l.drop (l.takeWhile p).length = l.dropWhile p := by
  intro l
  induction l with
  | nil => rfl
  | cons a t ih =>
    rw [List.takeWhile_cons, List.dropWhile_cons]
    by_cases ha : p a
    · simp only [ha, if_true, List.length_cons, List.drop_succ_cons]
      exact ih
    · simp [ha]

theorem head?_dropWhile_false {α : Type} {p : α → Bool} {l : List α} {c : α}
    (h : (l.dropWhile p).head? = some c) : p c = false := by
  have hh := List.head?_dropWhile_not p l
  rw [h] at hh
  exact hh

theorem chain'_drop {α : Type} {R : α → α → Prop} :
    ∀ (n : Nat) {l : List α}, List.Chain' R l → List.Chain' R (l.drop n) := by
  intro n
  induction n with
  | zero => intro l h; simpa using h
  | succ m ih =>
    intro l h
    cases l with
    | nil => trivial
    | cons a t =>
      rw [List.drop_succ_cons]
      exact ih h.tail

theorem chain'_dropWhile {α : Type} {R : α → α → Prop} {p : α → Bool} :
    ∀ {l : List α}, List.Chain' R l → List.Chain' R (l.dropWhile p) := by
  intro l
  induction l with
  | nil => intro h; exact h
  | cons a t ih =>
    intro h
    rw [List.dropWhile_cons]
    by_cases ha : p a
    · rw [if_pos ha]
      exact ih h.tail
    · rwa [if_neg ha]

theorem noWsPair_reverse {l : List Char} (h : NoWsPair l) : NoWsPair l.reverse := by
  rw [NoWsPair] at h ⊢
  rw [List.chain'_reverse]
  exact List.Chain'.imp (fun a b hab hba => hab ⟨hba.2, hba.1⟩) h

theorem trimJS_noWsPair {l : List Char} (h : NoWsPair l) : NoWsPair (trimJS l) := by
  rw [trimJS]
  exact noWsPair_reverse (chain'_dropWhile (noWsPair_reverse (chain'_dropWhile h)))

theorem noWsPair_of_all_nonws {l : List Char} (h : ∀ c ∈ l, jsWs c = false) :
    NoWsPair l := by
  induction l with
  | nil => trivial
  | cons a t ih =>
    rw [NoWsPair, List.chain'_cons']
    refine ⟨?_, ih fun c hc => h c (List.mem_cons_of_mem a hc)⟩
    intro b _
    intro hab
    rw [h a (List.mem_cons_self a t)] at hab
    exact absurd hab.1 (by simp)

theorem getLast?_of_suffix {α : Type} {l₁ l₂ : List α} {c : α}
    (hs : l₁ <:+ l₂) (h : l₁.getLast? = some c) : l₂.getLast? = some c := by
  obtain ⟨t, rfl⟩ := hs
  rw [List.getLast?_append, h]
  rfl

theorem trimJS_head?_false {l : List Char} {c : Char}
    (h : (trimJS l).head? = some c) : jsWs c = false := by
  rw [trimJS, List.head?_reverse] at h
  have h2 : ((l.dropWhile jsWs).reverse).getLast? = some c :=
    getLast?_of_suffix (List.dropWhile_suffix jsWs) h
  rw [List.getLast?_reverse] at h2
  exact head?_dropWhile_false h2

theorem trimJS_getLast?_false {l : List Char} {c : Char}
    (h : (trimJS l).getLast? = some c) : jsWs c = false := by
  rw [trimJS, List.getLast?_reverse] at h
  exact head?_dropWhile_false h

/-- Character-predicate preservation for the driver: if every replacement a
matcher emits satisfies the predicate whenever the input does, the whole pass
does. -/
theorem scanRep_all {p : Char → Bool} {f : List Char → Option (List Char × Nat)}
    (hf : ∀ cs r k, f cs = some (r, k) → (∀ c ∈ cs, p c = true) → ∀ c ∈ r, p c = true) :
    ∀ (fuel : Nat) (cs : List Char), (∀ c ∈ cs, p c = true) →
      ∀ c ∈ scanRep f fuel cs, p c = true := by
  intro fuel
  induction fuel with
  | zero =>
    intro cs h c hc
    cases cs with
    | nil => simp [scanRep] at hc
    | cons a t => exact h c hc
  | succ n ih =>
    intro cs h c hc
    cases cs with
    | nil => simp [scanRep] at hc
    | cons a t =>
      cases hfa : f (a :: t) with
      | none =>
        simp only [scanRep, hfa] at hc
        rcases List.mem_cons.mp hc with rfl | hc'
        · exact h c (List.mem_cons_self c t)
        · exact ih t (fun x hx => h x (List.mem_cons_of_mem a hx)) c hc'
      | some rk =>
        obtain ⟨r, k⟩ := rk
        simp only [scanRep, hfa] at hc
        rcases List.mem_append.mp hc with hc' | hc'
        · exact hf _ _ _ hfa h c hc'
        · exact ih (t.drop k)
            (fun x hx => h x (List.mem_cons_of_mem a (List.mem_of_mem_drop hx))) c hc'

theorem runRep_all {p : Char → Bool} {f : List Char → Option (List Char × Nat)}
    (hf : ∀ cs r k, f cs = some (r, k) → (∀ c ∈ cs, p c = true) → ∀ c ∈ r, p c = true)
    {cs : List Char} (h : ∀ c ∈ cs, p c = true) :
    ∀ c ∈ runRep f cs, p c = true :=
  scanRep_all hf cs.length cs h

/-- If every replacement starts with a non-whitespace character, a whitespace
character at the head of the output must come from the head of the input. -/
theorem scanRep_head_ws {f : List Char → Option (List Char × Nat)}
    (hf : ∀ cs r k, f cs = some (r, k) → ∃ d rr, r = d :: rr ∧ jsWs d = false) :
    ∀ (fuel : Nat) (cs : List Char) (c : Char),
      (scanRep f fuel cs).head? = some c → jsWs c = true →
      ∃ c0, cs.head? = some c0 ∧ jsWs c0 = true := by
  intro fuel cs c h hws
  cases fuel with
  | zero =>
    cases cs with
    | nil => simp [scanRep] at h
    | cons a t =>
      refine ⟨a, rfl, ?_⟩
      simp only [scanRep, List.head?_cons, Option.some.injEq] at h
      rwa [h]
  | succ n =>
    cases cs with
    | nil => simp [scanRep] at h
    | cons a t =>
      cases hfa : f (a :: t) with
      | none =>
        simp only [scanRep, hfa, List.head?_cons, Option.some.injEq] at h
        exact ⟨a, rfl, by rwa [h]⟩
      | some rk =>
        obtain ⟨r, k⟩ := rk
        obtain ⟨d, rr, rfl, hd⟩ := hf _ _ _ hfa
        simp only [scanRep, hfa, List.cons_append, List.head?_cons,
          Option.some.injEq] at h
        rw [← h] at hws
        exact absurd hws (by simp [hd])

/-- Whitespace-pair-freeness is preserved by a pass whose replacements are
nonempty, internally whitespace-pair-free, and have non-whitespace first and
last characters. -/
theorem scanRep_noWsPair {f : List Char → Option (List Char × Nat)}
    (hf : ∀ cs r k, f cs = some (r, k) →
      (∃ d rr, r = d :: rr ∧ jsWs d = false) ∧ NoWsPair r ∧
      (∀ c, r.getLast? = some c → jsWs c = false)) :
    ∀ (fuel : Nat) (cs : List Char), NoWsPair cs → NoWsPair (scanRep f fuel cs) := by
  intro fuel
  induction fuel with
  | zero =>
    intro cs h
    cases cs with
    | nil => trivial
    | cons a t => exact h
  | succ n ih =>
    intro cs h
    cases cs with
    | nil => trivial
    | cons a t =>
      cases hfa : f (a :: t) with
      | none =>
        show NoWsPair (scanRep f (n + 1) (a :: t))
        simp only [scanRep, hfa]
        rw [NoWsPair, List.chain'_cons']
        have h' : List.Chain' (fun a b => ¬(jsWs a = true ∧ jsWs b = true)) (a :: t) := h
        refine ⟨?_, ih t (List.Chain'.tail h')⟩
        intro b hb
        intro hab
        obtain ⟨c0, hc0, hwc0⟩ :=
          scanRep_head_ws (fun cs r k hm => (hf cs r k hm).1) n t b hb hab.2
        exact (List.chain'_cons'.mp h').1 c0 hc0 ⟨hab.1, hwc0⟩
      | some rk =>
        obtain ⟨r, k⟩ := rk
        obtain ⟨⟨d, rr, hr, hd⟩, hnr, hlast⟩ := hf _ _ _ hfa
        show NoWsPair (scanRep f (n + 1) (a :: t))
        simp only [scanRep, hfa]
        rw [NoWsPair, List.chain'_append]
        have h' : List.Chain' (fun a b => ¬(jsWs a = true ∧ jsWs b = true)) (a :: t) := h
        refine ⟨hnr, ih _ (chain'_drop k (List.Chain'.tail h')), ?_⟩
        intro x hx y _
        intro hxy
        exact absurd hxy.1 (by simp [hlast x hx])

theorem runRep_noWsPair {f : List Char → Option (List Char × Nat)}
    (hf : ∀ cs r k, f cs = some (r, k) →
      (∃ d rr, r = d :: rr ∧ jsWs d = false) ∧ NoWsPair r ∧
      (∀ c, r.getLast? = some c → jsWs c = false))
    {cs : List Char} (h : NoWsPair cs) : NoWsPair (runRep f cs) :=
  scanRep_noWsPair hf cs.length cs h

/-! ### The multi-space collapse establishes whitespace-pair-freeness -/

theorem mCollapse_some {a : Char} {t r : List Char} {k : Nat}
    (h : mCollapse (a :: t) = some (r, k)) :
    r = [' '] ∧ jsWs a = true ∧ k = (t.takeWhile jsWs).length ∧
      ∃ c2 t2, t = c2 :: t2 ∧ jsWs c2 = true := by
  cases t with
  | nil => simp [mCollapse] at h
  | cons c2 t2 =>
    simp only [mCollapse] at h
    by_cases hw : jsWs a && jsWs c2
    · rw [if_pos hw] at h
      simp only [Option.some.injEq, Prod.mk.injEq] at h
      have hws := Bool.and_eq_true_iff.mp hw
      exact ⟨h.1.symm, hws.1, h.2.symm, c2, t2, rfl, hws.2⟩
    · rw [if_neg hw] at h
      cases h

theorem mCollapse_none {a c2 : Char} {t2 : List Char}
    (h : mCollapse (a :: c2 :: t2) = none) :
    ¬(jsWs a = true ∧ jsWs c2 = true) := by
  intro hco
  simp only [mCollapse] at h
  rw [if_pos (by simp [hco.1, hco.2])] at h
  cases h

theorem scanRep_collapse_head_ws :
    ∀ (fuel : Nat) (cs : List Char) (c : Char),
      (scanRep mCollapse fuel cs).head? = some c → jsWs c = true →
      ∃ c0, cs.head? = some c0 ∧ jsWs c0 = true := by
  intro fuel cs c h hws
  cases fuel with
  | zero =>
    cases cs with
    | nil => simp [scanRep] at h
    | cons a t =>
      simp only [scanRep, List.head?_cons, Option.some.injEq] at h
      exact ⟨a, rfl, h ▸ hws⟩
  | succ n =>
    cases cs with
    | nil => simp [scanRep] at h
    | cons a t =>
      cases hfa : mCollapse (a :: t) with
      | none =>
        simp only [scanRep, hfa, List.head?_cons, Option.some.injEq] at h
        exact ⟨a, rfl, h ▸ hws⟩
      | some rk =>
        obtain ⟨r, k⟩ := rk
        obtain ⟨_, hwa, _, _⟩ := mCollapse_some hfa
        exact ⟨a, rfl, hwa⟩

theorem scanRep_collapse_noWsPair :
    ∀ (fuel : Nat) (cs : List Char), cs.length ≤ fuel →
      NoWsPair (scanRep mCollapse fuel cs) := by
  intro fuel
  induction fuel with
  | zero =>
    intro cs h
    have hnil : cs = [] := List.eq_nil_of_length_eq_zero (Nat.le_zero.mp h)
    subst hnil
    trivial
  | succ n ih =>
    intro cs h
    cases cs with
    | nil => trivial
    | cons a t =>
      have hlen : t.length ≤ n := by
        simp only [List.length_cons] at h
        omega
      cases hfa : mCollapse (a :: t) with
      | none =>
        show NoWsPair (scanRep mCollapse (n + 1) (a :: t))
        simp only [scanRep, hfa]
        rw [NoWsPair, List.chain'_cons']
        refine ⟨?_, ih t hlen⟩
        intro b hb
        intro hab
        obtain ⟨c0, hc0, hwc0⟩ := scanRep_collapse_head_ws n t b hb hab.2
        cases t with
        | nil => simp at hc0
        | cons c2 t2 =>
          simp only [List.head?_cons, Option.some.injEq] at hc0
          subst hc0
          exact mCollapse_none hfa ⟨hab.1, hwc0⟩
      | some rk =>
        obtain ⟨r, k⟩ := rk
        obtain ⟨hr, hwa, hk, c2, t2, ht, hwc2⟩ := mCollapse_some hfa
        subst hr
        show NoWsPair (scanRep mCollapse (n + 1) (a :: t))
        simp only [scanRep, hfa]
        have hdrop : t.drop k = t.dropWhile jsWs := by
          rw [hk]
          exact drop_takeWhile_length jsWs t
        rw [hdrop, List.singleton_append, NoWsPair, List.chain'_cons']
        constructor
        · intro b hb
          intro hab
          obtain ⟨c0, hc0, hwc0⟩ := scanRep_collapse_head_ws n _ b hb hab.2
          exact absurd hwc0 (by simp [head?_dropWhile_false hc0])
        · exact ih _ (le_trans (List.Sublist.length_le (List.dropWhile_sublist _)) hlen)

theorem runRep_collapse_noWsPair (cs : List Char) : NoWsPair (runRep mCollapse cs) :=
  scanRep_collapse_noWsPair cs.length cs le_rfl

theorem cssMinify_def (css : List Char) :
    cssMinify css = trimJS (runRep mCollapse (remCtl (runRep mSemiBrace (runRep (mAround ',')
      (runRep (mAround ':') (runRep (mAround ';') (runRep (mAround rbraceC)
        (runRep (mAround lbraceC) (runRep mCssComment css))))))))) := rfl

theorem attrMinify_def (v : List Char) :
    attrMinify v = trimJS (runRep mCollapse (stripTrailingSemi
      (runRep (mAround ':') (runRep (mAround ';') v)))) := rfl

theorem minifyChars_def (a : List Char) :
    minifyChars a = trimJS (runRep mSelfClose (runRep mUnquote (runRep mStyleAttr
      (runRep mStyleTag (runRep (mAround '>') (runRep (mAround '<')
        (runRep (mAround '=') (runRep mCollapse (trimJS (runRep mGtLt
          (remTabs (remCRLF (runRep mComment a))))))))))))) := rfl

theorem jsWs_eq_false_of_simpleChar {c : Char} (h : simpleChar c = true) :
    jsWs c = false := by
  simp only [simpleChar, Bool.or_eq_true, Bool.and_eq_true, decide_eq_true_eq] at h
  simp only [jsWs, Bool.or_eq_false_iff, Bool.and_eq_false_iff, decide_eq_false_iff_not]
  omega

/-! ### Shapes of the replacements each matcher can emit -/

theorem mComment_rep {cs r : List Char} {k : Nat}
    (h : mComment cs = some (r, k)) : r = [] := by
  simp only [mComment] at h
  split at h
  · split at h
    · simp only [Option.some.injEq, Prod.mk.injEq] at h
      exact h.1.symm
    · cases h
  · cases h

theorem mCssComment_rep {cs r : List Char} {k : Nat}
    (h : mCssComment cs = some (r, k)) : r = [] := by
  simp only [mCssComment] at h
  split at h
  · split at h
    · simp only [Option.some.injEq, Prod.mk.injEq] at h
      exact h.1.symm
    · cases h
  · cases h

theorem mGtLt_rep {cs r : List Char} {k : Nat}
    (h : mGtLt cs = some (r, k)) : r = ['>', '<'] := by
  simp only [mGtLt] at h
  split at h
  · split at h
    · cases h
    · split at h
      · simp only [Option.some.injEq, Prod.mk.injEq] at h
        exact h.1.symm
      · cases h
  · cases h

theorem mAround_rep {t : Char} {cs r : List Char} {k : Nat}
    (h : mAround t cs = some (r, k)) : r = [t] := by
  simp only [mAround] at h
  split at h
  · split at h
    · simp only [Option.some.injEq, Prod.mk.injEq] at h
      exact h.1.symm
    · cases h
  · cases h

theorem mSemiBrace_rep {cs r : List Char} {k : Nat}
    (h : mSemiBrace cs = some (r, k)) : r = [rbraceC] := by
  simp only [mSemiBrace] at h
  split at h
  · split at h
    · split at h
      · split at h
        · simp only [Option.some.injEq, Prod.mk.injEq] at h
          exact h.1.symm
        · cases h
      · cases h
    · cases h
  · cases h

theorem mSelfClose_rep {cs r : List Char} {k : Nat}
    (h : mSelfClose cs = some (r, k)) : r = ['/', '>'] := by
  simp only [mSelfClose] at h
  split at h
  · split at h
    · simp only [Option.some.injEq, Prod.mk.injEq] at h
      exact h.1.symm
    · cases h
  · cases h

theorem mUnquote_rep {cs r : List Char} {k : Nat}
    (h : mUnquote cs = some (r, k)) :
    ∃ q r2, cs = '=' :: q :: r2 ∧ r = '=' :: r2.takeWhile simpleChar := by
  unfold mUnquote at h
  split at h
  · rename_i rest
    split at h
    · rename_i q r2
      split at h
      · by_cases he : (r2.takeWhile simpleChar).isEmpty
        · rw [if_pos he] at h
          cases h
        · rw [if_neg he] at h
          split at h
          · split at h
            · simp only [Option.some.injEq, Prod.mk.injEq] at h
              exact ⟨q, r2, rfl, h.1.symm⟩
            · cases h
          · cases h
      · cases h
    · cases h
  · cases h

theorem mStyleTag_rep {cs r : List Char} {k : Nat}
    (h : mStyleTag cs = some (r, k)) :
    ∃ content, (∀ c ∈ content, c ∈ cs) ∧
      r = "<style>".data ++ (cssMinify content ++ "</style>".data) := by
  simp only [mStyleTag] at h
  split at h
  · split at h
    · rename_i body heq
      split at h
      · rename_i j hj
        simp only [Option.some.injEq, Prod.mk.injEq] at h
        refine ⟨body.take j, ?_, by rw [← h.1, List.append_assoc]⟩
        intro c hc
        have h1 : c ∈ body := List.take_subset j body hc
        have h2 : c ∈ ('>' :: body) := List.mem_cons_of_mem _ h1
        rw [← heq] at h2
        exact List.drop_subset _ _ (List.drop_subset _ _ h2)
      · cases h
    · cases h
  · cases h

theorem mStyleAttr_rep {cs r : List Char} {k : Nat}
    (h : mStyleAttr cs = some (r, k)) :
    ∃ content, (∀ c ∈ content, c ∈ cs) ∧
      r = "style=".data ++ dquoteC :: (attrMinify content ++ [dquoteC]) := by
  simp only [mStyleAttr] at h
  split at h
  · split at h
    · rename_i r3 heq3
      split at h
      · rename_i q r5 heq5
        split at h
        · split at h
          · rename_i q2 rx heq6
            split at h
            · simp only [Option.some.injEq, Prod.mk.injEq] at h
              refine ⟨(r5.takeWhile fun c => !isQuote c), ?_, h.1.symm⟩
              intro c hc
              have h1 : c ∈ r5 := List.takeWhile_subset _ hc
              have h2 : c ∈ (q :: r5) := List.mem_cons_of_mem _ h1
              rw [← heq5] at h2
              have h3 := List.drop_subset _ _ h2
              have h4 : c ∈ ('=' :: r3) := List.mem_cons_of_mem _ h3
              rw [← heq3] at h4
              have h5 := List.drop_subset _ _ h4
              exact List.drop_subset _ _ h5
            · cases h
          · cases h
        · cases h
      · cases h
    · cases h
  · cases h

/-! ### Composition of the pipeline (the defs are sealed locally so that
unification never unfolds the deep nesting) -/

section PipelineSeal

attribute [local irreducible] runRep trimJS remCtl remCRLF remTabs
  stripTrailingSemi cssMinify attrMinify minifyChars minifyHTML

theorem cssMinify_noWsPair (css : List Char) : NoWsPair (cssMinify css) := by
  rw [cssMinify_def]
  exact trimJS_noWsPair (runRep_collapse_noWsPair _)

theorem attrMinify_noWsPair (v : List Char) : NoWsPair (attrMinify v) := by
  rw [attrMinify_def]
  exact trimJS_noWsPair (runRep_collapse_noWsPair _)

theorem cssMinify_head?_false {x : List Char} {c : Char}
    (h : (cssMinify x).head? = some c) : jsWs c = false := by
  rw [cssMinify_def] at h
  exact trimJS_head?_false h

theorem cssMinify_getLast?_false {x : List Char} {c : Char}
    (h : (cssMinify x).getLast? = some c) : jsWs c = false := by
  rw [cssMinify_def] at h
  exact trimJS_getLast?_false h

theorem attrMinify_head?_false {x : List Char} {c : Char}
    (h : (attrMinify x).head? = some c) : jsWs c = false := by
  rw [attrMinify_def] at h
  exact trimJS_head?_false h

theorem attrMinify_getLast?_false {x : List Char} {c : Char}
    (h : (attrMinify x).getLast? = some c) : jsWs c = false := by
  rw [attrMinify_def] at h
  exact trimJS_getLast?_false h

end PipelineSeal

/-! ### Membership and establishment helpers for the pipeline -/

theorem trimJS_mem {l : List Char} {c : Char} (h : c ∈ trimJS l) : c ∈ l := by
  unfold trimJS at h
  rw [List.mem_reverse] at h
  have h2 := (List.dropWhile_sublist jsWs).subset h
  rw [List.mem_reverse] at h2
  exact (List.dropWhile_sublist jsWs).subset h2

theorem stripTrailingSemi_mem {l : List Char} {c : Char}
    (h : c ∈ stripTrailingSemi l) : c ∈ l := by
  simp only [stripTrailingSemi] at h
  split at h
  · rename_i c1 rest heq
    split at h
    · rw [List.mem_reverse] at h
      have h2 : c ∈ (c1 :: rest) := List.mem_cons_of_mem _ h
      rw [← heq] at h2
      have h3 := List.drop_subset _ _ h2
      rwa [List.mem_reverse] at h3
    · exact h
  · exact h

theorem remCtl_mem {l : List Char} {c : Char} (h : c ∈ remCtl l) : c ∈ l :=
  (List.mem_filter.mp h).1

theorem remTabs_remCRLF_good (l : List Char) :
    ∀ c ∈ remTabs (remCRLF l), pcGood c = true := by
  intro c hc
  unfold remTabs at hc
  rw [List.mem_filter] at hc
  obtain ⟨hc1, ht⟩ := hc
  unfold remCRLF at hc1
  rw [List.mem_filter] at hc1
  obtain ⟨_, hrn⟩ := hc1
  simp only [Bool.not_eq_eq_eq_not, Bool.not_true, Bool.or_eq_false_iff] at ht hrn
  simp [pcGood, ht, hrn.1, hrn.2]

theorem noDoubleSpaceAux_of_noWsPair :
    ∀ {l : List Char}, NoWsPair l → noDoubleSpaceAux l = true := by
  intro l h
  induction l with
  | nil => rfl
  | cons a t ih =>
    cases t with
    | nil => rfl
    | cons b t2 =>
      rw [noDoubleSpaceAux, Bool.and_eq_true]
      constructor
      · have hR := (List.chain'_cons.mp h).1
        by_cases ha : a = ' '
        · by_cases hb : b = ' '
          · exact absurd (by subst ha; subst hb; exact ⟨by decide, by decide⟩) hR
          · simp [hb]
        · simp [ha]
      · exact ih (List.Chain'.tail h)

theorem minifyHTML_mk (s : String) : minifyHTML s = String.mk (minifyChars s.data) := rfl

theorem minifyHTML_data (s : String) : (minifyHTML s).data = minifyChars s.data := by
  rw [minifyHTML_mk]

/-! ### Per-matcher conditions for the preservation lemmas -/

theorem mComment_good : ∀ cs r k, mComment cs = some (r, k) →
    (∀ c ∈ cs, pcGood c = true) → ∀ c ∈ r, pcGood c = true := by
  intro cs r k hm _ c hc
  rw [mComment_rep hm] at hc
  cases hc

theorem mCssComment_good : ∀ cs r k, mCssComment cs = some (r, k) →
    (∀ c ∈ cs, pcGood c = true) → ∀ c ∈ r, pcGood c = true := by
  intro cs r k hm _ c hc
  rw [mCssComment_rep hm] at hc
  cases hc

theorem mGtLt_good : ∀ cs r k, mGtLt cs = some (r, k) →
    (∀ c ∈ cs, pcGood c = true) → ∀ c ∈ r, pcGood c = true := by
  intro cs r k hm _ c hc
  rw [mGtLt_rep hm] at hc
  rcases List.mem_cons.mp hc with rfl | hc'
  · decide
  · rcases List.mem_cons.mp hc' with rfl | hc''
    · decide
    · cases hc''

theorem mCollapse_good : ∀ cs r k, mCollapse cs = some (r, k) →
    (∀ c ∈ cs, pcGood c = true) → ∀ c ∈ r, pcGood c = true := by
  intro cs r k hm _ c hc
  cases cs with
  | nil => simp [mCollapse] at hm
  | cons a t =>
    rw [(mCollapse_some hm).1] at hc
    rcases List.mem_cons.mp hc with rfl | hc'
    · decide
    · cases hc'

theorem mAround_good (t : Char) (ht : pcGood t = true) :
    ∀ cs r k, mAround t cs = some (r, k) →
    (∀ c ∈ cs, pcGood c = true) → ∀ c ∈ r, pcGood c = true := by
  intro cs r k hm _ c hc
  rw [mAround_rep hm] at hc
  rcases List.mem_cons.mp hc with rfl | hc'
  · exact ht
  · cases hc'

theorem mSemiBrace_good : ∀ cs r k, mSemiBrace cs = some (r, k) →
    (∀ c ∈ cs, pcGood c = true) → ∀ c ∈ r, pcGood c = true := by
  intro cs r k hm _ c hc
  rw [mSemiBrace_rep hm] at hc
  rcases List.mem_cons.mp hc with rfl | hc'
  · decide
  · cases hc'

theorem mSelfClose_good : ∀ cs r k, mSelfClose cs = some (r, k) →
    (∀ c ∈ cs, pcGood c = true) → ∀ c ∈ r, pcGood c = true := by
  intro cs r k hm _ c hc
  rw [mSelfClose_rep hm] at hc
  rcases List.mem_cons.mp hc with rfl | hc'
  · decide
  · rcases List.mem_cons.mp hc' with rfl | hc''
    · decide
    · cases hc''

theorem mUnquote_good : ∀ cs r k, mUnquote cs = some (r, k) →
    (∀ c ∈ cs, pcGood c = true) → ∀ c ∈ r, pcGood c = true := by
  intro cs r k hm hall c hc
  obtain ⟨q, r2, hcs, hr⟩ := mUnquote_rep hm
  rw [hr] at hc
  rcases List.mem_cons.mp hc with rfl | hc'
  · decide
  · refine hall c ?_
    rw [hcs]
    exact List.mem_cons_of_mem _ (List.mem_cons_of_mem _ (List.takeWhile_subset _ hc'))

/-! ### Pipeline composition under local seals (unification must not unfold
the deep nesting, so the pipeline defs are locally irreducible here) -/

section PipelineSealB

attribute [local irreducible] runRep trimJS remCtl remCRLF remTabs
  stripTrailingSemi cssMinify attrMinify minifyChars minifyHTML

theorem trimJS_all {l : List Char} (h : ∀ c ∈ l, pcGood c = true) :
    ∀ c ∈ trimJS l, pcGood c = true := fun c hc => h c (trimJS_mem hc)

theorem remCtl_all {l : List Char} (h : ∀ c ∈ l, pcGood c = true) :
    ∀ c ∈ remCtl l, pcGood c = true := fun c hc => h c (remCtl_mem hc)

theorem stripTrailingSemi_all {l : List Char} (h : ∀ c ∈ l, pcGood c = true) :
    ∀ c ∈ stripTrailingSemi l, pcGood c = true :=
  fun c hc => h c (stripTrailingSemi_mem hc)

theorem cssMinify_good {css : List Char} (h : ∀ c ∈ css, pcGood c = true) :
    ∀ c ∈ cssMinify css, pcGood c = true := by
  rw [cssMinify_def]
  exact trimJS_all (runRep_all mCollapse_good (remCtl_all (runRep_all mSemiBrace_good
    (runRep_all (mAround_good ',' (by decide)) (runRep_all (mAround_good ':' (by decide))
      (runRep_all (mAround_good ';' (by decide)) (runRep_all (mAround_good rbraceC (by decide))
        (runRep_all (mAround_good lbraceC (by decide))
          (runRep_all mCssComment_good h)))))))))

theorem attrMinify_good {v : List Char} (h : ∀ c ∈ v, pcGood c = true) :
    ∀ c ∈ attrMinify v, pcGood c = true := by
  rw [attrMinify_def]
  exact trimJS_all (runRep_all mCollapse_good (stripTrailingSemi_all
    (runRep_all (mAround_good ':' (by decide)) (runRep_all (mAround_good ';' (by decide)) h))))

theorem mStyleTag_good : ∀ cs r k, mStyleTag cs = some (r, k) →
    (∀ c ∈ cs, pcGood c = true) → ∀ c ∈ r, pcGood c = true := by
  intro cs r k hm hall c hc
  obtain ⟨content, hmem, hr⟩ := mStyleTag_rep hm
  rw [hr] at hc
  rcases List.mem_append.mp hc with hc1 | hc2
  · exact (by decide : ∀ x ∈ "<style>".data, pcGood x = true) c hc1
  · rcases List.mem_append.mp hc2 with hc3 | hc4
    · exact cssMinify_good (fun x hx => hall x (hmem x hx)) c hc3
    · exact (by decide : ∀ x ∈ "</style>".data, pcGood x = true) c hc4

theorem mStyleAttr_good : ∀ cs r k, mStyleAttr cs = some (r, k) →
    (∀ c ∈ cs, pcGood c = true) → ∀ c ∈ r, pcGood c = true := by
  intro cs r k hm hall c hc
  obtain ⟨content, hmem, hr⟩ := mStyleAttr_rep hm
  rw [hr] at hc
  rcases List.mem_append.mp hc with hc1 | hc2
  · exact (by decide : ∀ x ∈ "style=".data, pcGood x = true) c hc1
  · rcases List.mem_cons.mp hc2 with rfl | hc3
    · decide
    · rcases List.mem_append.mp hc3 with hc4 | hc5
      · exact attrMinify_good (fun x hx => hall x (hmem x hx)) c hc4
      · rcases List.mem_cons.mp hc5 with rfl | hc6
        · decide
        · cases hc6

theorem minifyChars_good (a : List Char) : ∀ c ∈ minifyChars a, pcGood c = true := by
  rw [minifyChars_def]
  exact trimJS_all (runRep_all mSelfClose_good (runRep_all mUnquote_good
    (runRep_all mStyleAttr_good (runRep_all mStyleTag_good
      (runRep_all (mAround_good '>' (by decide)) (runRep_all (mAround_good '<' (by decide))
        (runRep_all (mAround_good '=' (by decide)) (runRep_all mCollapse_good
          (trimJS_all (runRep_all mGtLt_good (remTabs_remCRLF_good _)))))))))))

theorem mAround_mc (t : Char) (ht : jsWs t = false) :
    ∀ cs r k, mAround t cs = some (r, k) →
      (∃ d rr, r = d :: rr ∧ jsWs d = false) ∧ NoWsPair r ∧
      (∀ c, r.getLast? = some c → jsWs c = false) := by
  intro cs r k hm
  rw [mAround_rep hm]
  refine ⟨⟨t, [], rfl, ht⟩, ?_, ?_⟩
  · refine noWsPair_of_all_nonws ?_
    intro c hc
    rcases List.mem_cons.mp hc with rfl | h2
    · exact ht
    · cases h2
  · intro c hc
    rcases List.mem_cons.mp (List.mem_of_getLast?_eq_some hc) with rfl | h2
    · exact ht
    · cases h2

theorem mSelfClose_mc : ∀ cs r k, mSelfClose cs = some (r, k) →
    (∃ d rr, r = d :: rr ∧ jsWs d = false) ∧ NoWsPair r ∧
      (∀ c, r.getLast? = some c → jsWs c = false) := by
  intro cs r k hm
  rw [mSelfClose_rep hm]
  refine ⟨⟨'/', ['>'], rfl, by decide⟩, ?_, ?_⟩
  · exact noWsPair_of_all_nonws (by decide)
  · intro c hc
    have hmem := List.mem_of_getLast?_eq_some hc
    have : jsWs '/' = false ∧ jsWs '>' = false := by decide
    rcases List.mem_cons.mp hmem with rfl | h2
    · exact this.1
    · rcases List.mem_cons.mp h2 with rfl | h3
      · exact this.2
      · cases h3

theorem mUnquote_mc : ∀ cs r k, mUnquote cs = some (r, k) →
    (∃ d rr, r = d :: rr ∧ jsWs d = false) ∧ NoWsPair r ∧
      (∀ c, r.getLast? = some c → jsWs c = false) := by
  intro cs r k hm
  obtain ⟨q, r2, hcs, hr⟩ := mUnquote_rep hm
  subst hr
  have hall : ∀ c ∈ '=' :: r2.takeWhile simpleChar, jsWs c = false := by
    intro c hc
    rcases List.mem_cons.mp hc with rfl | hc'
    · decide
    · exact jsWs_eq_false_of_simpleChar (pred_of_mem_takeWhile hc')
  refine ⟨⟨'=', _, rfl, by decide⟩, noWsPair_of_all_nonws hall, ?_⟩
  intro c hc
  exact hall c (List.mem_of_getLast?_eq_some hc)

theorem mStyleTag_mc : ∀ cs r k, mStyleTag cs = some (r, k) →
    (∃ d rr, r = d :: rr ∧ jsWs d = false) ∧ NoWsPair r ∧
      (∀ c, r.getLast? = some c → jsWs c = false) := by
  intro cs r k hm
  obtain ⟨content, _, hr⟩ := mStyleTag_rep hm
  subst hr
  have hsh : "<style>".data ++ (cssMinify content ++ "</style>".data)
      = '<' :: ("style>".data ++ (cssMinify content ++ "</style>".data)) := rfl
  refine ⟨⟨'<', _, hsh, by decide⟩, ?_, ?_⟩
  · rw [NoWsPair, List.chain'_append]
    refine ⟨noWsPair_of_all_nonws (by decide), ?_, ?_⟩
    · rw [List.chain'_append]
      refine ⟨cssMinify_noWsPair content, noWsPair_of_all_nonws (by decide), ?_⟩
      intro x hx y _
      intro hxy
      exact absurd hxy.1 (by simp [cssMinify_getLast?_false hx])
    · intro x hx y _
      intro hxy
      have hgl : ("<style>".data).getLast? = some '>' := by decide
      rw [hgl] at hx
      have hx' : x = '>' := by have := hx; simpa using this.symm
      rw [hx'] at hxy
      exact absurd hxy.1 (by decide)
  · intro c hc
    have hlast : ("<style>".data ++ (cssMinify content ++ "</style>".data)).getLast?
        = some '>' := by
      rw [List.getLast?_append, List.getLast?_append]
      have hq : ("</style>".data).getLast? = some '>' := by decide
      rw [hq]
      rfl
    rw [hlast] at hc
    injection hc with h2
    rw [← h2]
    decide

theorem mStyleAttr_mc : ∀ cs r k, mStyleAttr cs = some (r, k) →
    (∃ d rr, r = d :: rr ∧ jsWs d = false) ∧ NoWsPair r ∧
      (∀ c, r.getLast? = some c → jsWs c = false) := by
  intro cs r k hm
  obtain ⟨content, _, hr⟩ := mStyleAttr_rep hm
  subst hr
  have hshape : "style=".data ++ dquoteC :: (attrMinify content ++ [dquoteC])
      = ("style=".data ++ dquoteC :: attrMinify content) ++ [dquoteC] := by
    rw [List.append_assoc]
    rfl
  have hsh2 : "style=".data ++ dquoteC :: (attrMinify content ++ [dquoteC])
      = 's' :: ("tyle=".data ++ dquoteC :: (attrMinify content ++ [dquoteC])) := rfl
  refine ⟨⟨'s', _, hsh2, by decide⟩, ?_, ?_⟩
  · rw [hshape, NoWsPair, List.chain'_append]
    refine ⟨?_, noWsPair_of_all_nonws ?_, ?_⟩
    · rw [List.chain'_append]
      refine ⟨noWsPair_of_all_nonws (by decide), ?_, ?_⟩
      · rw [List.chain'_cons']
        refine ⟨?_, attrMinify_noWsPair content⟩
        intro y _
        intro hp
        exact absurd hp.1 (by decide)
      · intro x _ y hy
        intro hp
        have hy' : y = dquoteC := by
          simp only [List.head?_cons] at hy
          have h2 : dquoteC = y := by simpa using hy
          exact h2.symm
        rw [hy'] at hp
        exact absurd hp.2 (by decide)
    · intro c hc
      rcases List.mem_cons.mp hc with rfl | h2
      · decide
      · cases h2
    · intro x _ y hy
      intro hp
      have hy' : y = dquoteC := by
        simp only [List.head?_cons] at hy
        have h2 : dquoteC = y := by simpa using hy
        exact h2.symm
      rw [hy'] at hp
      exact absurd hp.2 (by decide)
  · intro c hc
    rw [hshape, List.getLast?_concat] at hc
    injection hc with h2
    rw [← h2]
    decide

theorem minifyChars_noWsPair (a : List Char) : NoWsPair (minifyChars a) := by
  rw [minifyChars_def]
  apply trimJS_noWsPair
  apply runRep_noWsPair mSelfClose_mc
  apply runRep_noWsPair mUnquote_mc
  apply runRep_noWsPair mStyleAttr_mc
  apply runRep_noWsPair mStyleTag_mc
  apply runRep_noWsPair (mAround_mc '>' (by decide))
  apply runRep_noWsPair (mAround_mc '<' (by decide))
  apply runRep_noWsPair (mAround_mc '=' (by decide))
  exact runRep_collapse_noWsPair _

theorem minifyChars_head?_false {a : List Char} {c : Char}
    (h : (minifyChars a).head? = some c) : jsWs c = false := by
  rw [minifyChars_def] at h
  exact trimJS_head?_false h

theorem minifyChars_getLast?_false {a : List Char} {c : Char}
    (h : (minifyChars a).getLast? = some c) : jsWs c = false := by
  rw [minifyChars_def] at h
  exact trimJS_getLast?_false h

/-- Claim C8: for every input string the HTML Normalizer's output is
single-line and whitespace-minimized: it contains no line feed, carriage
return or tab; it has no leading or trailing whitespace; and no two
consecutive spaces occur in it. -/
theorem minifyHTML_single_line_minimized (s : String) :
    noCtlB (minifyHTML s) = true ∧ edgesTrimB (minifyHTML s) = true ∧
    noDoubleSpaceB (minifyHTML s) = true := by
  refine ⟨?_, ?_, ?_⟩
  · unfold noCtlB
    rw [minifyHTML_data]
    exact List.all_eq_true.mpr (minifyChars_good s.data)
  · unfold edgesTrimB
    rw [minifyHTML_data, Bool.and_eq_true]
    constructor
    · rcases hh : (minifyChars s.data).head? with _ | c1
      · simp
      · simp [minifyChars_head?_false hh]
    · rcases hl : (minifyChars s.data).getLast? with _ | c2
      · simp
      · simp [minifyChars_getLast?_false hl]
  · unfold noDoubleSpaceB
    rw [minifyHTML_data]
    exact noDoubleSpaceAux_of_noWsPair (minifyChars_noWsPair s.data)

end PipelineSealB
